import Mathlib

/-!
Verification of the Quiz Generation & Grading Pipeline of the AI Study Buddy
application (`project.py`) against its natural-language specification.

Strings are modelled as `List Char`.  Python values parsed from JSON are
modelled by the inductive type `PyVal`.  Each definition is a shallow
embedding of the corresponding function in `project.py`; the few places where
a Python library routine (`re`, `json`) is modelled rather than translated
line by line are marked in the doc comments.
-/

namespace StudyBuddy

/-- Whitespace characters as matched by Python's `re` class `\s`
(the ASCII part: space, tab, newline, vertical tab, form feed,
carriage return). -/
def isWS (c : Char) : Bool :=
  c = ' ' || c = '\t' || c = '\n' || c = '\x0b' || c = '\x0c' || c = '\r'

/-- Python's `str.strip()`: remove leading and trailing whitespace. -/
def pyStrip (s : List Char) : List Char :=
  ((s.dropWhile isWS).reverse.dropWhile isWS).reverse

/-- Model of `re.sub(r'\s+', ' ', ·)`: replace every maximal run of
whitespace by a single space.  The boolean flag records whether we are
inside a whitespace run whose first character has already been emitted. -/
def collapseAux : Bool → List Char → List Char
  | _, [] => []
  | inRun, c :: rest =>
    if isWS c then
      if inRun then collapseAux true rest
      else ' ' :: collapseAux true rest
    else c :: collapseAux false rest

/-- `clean_text` from `project.py` (line 14):
`re.sub(r'\s+', ' ', text.strip())`. -/
def clean_text (s : List Char) : List Char :=
  collapseAux false (pyStrip s)

/-- A character matched by the regex class `[A-Da-d]`. -/
def isLetterAD (c : Char) : Bool :=
  ('A' ≤ c && c ≤ 'D') || ('a' ≤ c && c ≤ 'd')

/-- Model of `re.match(r'([A-Da-d])', s)`: `re.match` anchors at the start
of the string, so it succeeds exactly when the first character is in the
class. -/
def reMatchAD : List Char → Option Char
  | [] => none
  | c :: _ => if isLetterAD c then some c else none

/-- `normalize_answer` from `project.py` (lines 18-22):
empty-string guard, then `re.match(r'([A-Da-d])', answer.strip())`,
returning the matched letter upper-cased, else the empty string. -/
def normalize_answer (answer : List Char) : List Char :=
  if answer = [] then []
  else
    match reMatchAD (pyStrip answer) with
    | some c => [c.toUpper]
    | none => []

/-- `calculate_score` from `project.py` (lines 25-26):
`sum(ua == ca for ua, ca in zip(user_answers, correct_answers))`.
Note that Python's `zip` stops at the shorter of the two lists. -/
def calculate_score (user_answers correct_answers : List (List Char)) : Nat :=
  ((user_answers.zip correct_answers).map (fun p => if p.1 = p.2 then 1 else 0)).sum

/-- Per-question verdict in the results display.  The two wrong cases differ
only in the message text (`ua or 'No answer'`). -/
inductive Verdict where
  | correct : Verdict
  | wrongNoAnswer : Verdict
  | wrongMismatch : Verdict
deriving DecidableEq

/-- The per-question classification of `project.py` (lines 242-248):
`if ua == ca:` print Correct, `else:` print Wrong with
`ua or 'No answer'` as the displayed user answer. -/
def classify (ua ca : List Char) : Verdict :=
  if ua = ca then .correct
  else if ua = [] then .wrongNoAnswer
  else .wrongMismatch

/-- Specification-side restatement of `normalizeAnswerToken` (spec §4.1):
strip the input, look at the leading character, return it upper-cased when
it is a letter A-D (case-insensitive), else the empty string. -/
def specNormalizeAnswerToken (s : List Char) : List Char :=
  match (pyStrip s).head? with
  | some c => if isLetterAD c then [c.toUpper] else []
  | none => []

/-- Head character is not whitespace (vacuously true for `[]`). -/
def nwHead : List Char → Bool
  | [] => true
  | c :: _ => !(isWS c)

/-- Last character is not whitespace (vacuously true for `[]`). -/
def nwLast : List Char → Bool
  | [] => true
  | [c] => !(isWS c)
  | _ :: rest => nwLast rest

/-- Every whitespace character is a single `' '` immediately followed by a
non-whitespace character: the shape of `re.sub(r'\s+', ' ', ·)` output on a
stripped string. -/
def good : List Char → Bool
  | [] => true
  | c :: rest =>
    if isWS c then
      (c == ' ') && (match rest with | [] => false | d :: _ => !(isWS d)) && good rest
    else good rest

/-- Python values produced by `json.loads` on the JSON this pipeline
exchanges with the model: null, booleans, integer numerals, strings,
arrays and objects.  (JSON floats and `\uXXXX` escapes are outside the
model; nothing in the pipeline produces or relies on them.) -/
inductive PyVal where
  | null : PyVal
  | boolean : Bool → PyVal
  | num : Int → PyVal
  | str : List Char → PyVal
  | arr : List PyVal → PyVal
  | obj : List (List Char × PyVal) → PyVal

/-- JSON escape of one character inside a string literal (the escapes the
canonical serialization uses). -/
def escChar (c : Char) : List Char :=
  if c = '"' then ['\\', '"']
  else if c = '\\' then ['\\', '\\']
  else if c = '\n' then ['\\', 'n']
  else if c = '\t' then ['\\', 't']
  else if c = '\r' then ['\\', 'r']
  else [c]

/-- Serialized JSON string literal: quote, escaped content, quote. -/
def serStr (s : List Char) : List Char :=
  '"' :: (s.map escChar).flatten ++ ['"']

/-- Decimal digits of a natural number, most significant first.  The first
argument is explicit fuel so that the definition is structural (hence
kernel-computable); fuel `n + 1` always suffices since `n / 10 < n` for
`n ≥ 10`. -/
def natDigitsAux : Nat → Nat → List Char → List Char
  | 0, _, acc => acc
  | fuel + 1, n, acc =>
    if n < 10 then Nat.digitChar n :: acc
    else natDigitsAux fuel (n / 10) (Nat.digitChar (n % 10) :: acc)

/-- Decimal representation of a natural number. -/
def natDigits (n : Nat) : List Char := natDigitsAux (n + 1) n []

/-- Decimal representation of an integer (minus sign for negatives). -/
def serInt (i : Int) : List Char :=
  if i < 0 then '-' :: natDigits i.natAbs else natDigits i.toNat

mutual

/-- Canonical JSON serialization of a `PyVal`, in the shape `json.dumps`
produces (`", "` between elements and members, `": "` after keys). -/
def serVal : PyVal → List Char
  | .null => ['n', 'u', 'l', 'l']
  | .boolean true => ['t', 'r', 'u', 'e']
  | .boolean false => ['f', 'a', 'l', 's', 'e']
  | .num i => serInt i
  | .str s => serStr s
  | .arr l => '[' :: serElems l ++ [']']
  | .obj m => '\x7b' :: serMembers m ++ ['\x7d']
termination_by structural v => v

/-- Serialized array elements, `", "`-separated, without the brackets. -/
def serElems : List PyVal → List Char
  | [] => []
  | [v] => serVal v
  | v :: tl => serVal v ++ ',' :: ' ' :: serElems tl
termination_by structural l => l

/-- Serialized object members, `", "`-separated, without the braces. -/
def serMembers : List (List Char × PyVal) → List Char
  | [] => []
  | [(k, v)] => serStr k ++ ':' :: ' ' :: serVal v
  | (k, v) :: tl => serStr k ++ ':' :: ' ' :: serVal v ++ ',' :: ' ' :: serMembers tl
termination_by structural m => m

end

mutual

/-- Number of parsing steps a value needs (used to discharge the parser's
fuel). -/
def szVal : PyVal → Nat
  | .null => 1
  | .boolean _ => 1
  | .num _ => 1
  | .str _ => 1
  | .arr l => 1 + szElems l
  | .obj m => 1 + szMembers m
termination_by structural v => v

/-- Fuel needed by `parseElems`. -/
def szElems : List PyVal → Nat
  | [] => 0
  | v :: tl => 1 + szVal v + szElems tl
termination_by structural l => l

/-- Fuel needed by `parseMembers`. -/
def szMembers : List (List Char × PyVal) → Nat
  | [] => 0
  | (_, v) :: tl => 1 + szVal v + szMembers tl
termination_by structural m => m

end

/-- A string that avoids control characters other than tab, newline and
carriage return, so that its canonical serialization stays inside the
modelled escape set. -/
def cleanStr (s : List Char) : Bool :=
  s.all (fun c => 32 ≤ c.toNat || c = '\n' || c = '\t' || c = '\r')

mutual

/-- Every string in the value satisfies `cleanStr`: the canonical
serialization of the value is well-formed JSON within the modelled escape
set. -/
def cleanVal : PyVal → Bool
  | .null => true
  | .boolean _ => true
  | .num _ => true
  | .str s => cleanStr s
  | .arr l => cleanElems l
  | .obj m => cleanMembers m
termination_by structural v => v

/-- `cleanVal` over a list of elements. -/
def cleanElems : List PyVal → Bool
  | [] => true
  | v :: tl => cleanVal v && cleanElems tl
termination_by structural l => l

/-- `cleanVal` over object members (keys included). -/
def cleanMembers : List (List Char × PyVal) → Bool
  | [] => true
  | (k, v) :: tl => cleanStr k && cleanVal v && cleanMembers tl
termination_by structural m => m

end

/-- JSON whitespace skipped between tokens. -/
def jsonWS (c : Char) : Bool :=
  c = ' ' || c = '\t' || c = '\n' || c = '\r'

/-- Skip JSON whitespace. -/
def skipWS (s : List Char) : List Char := s.dropWhile jsonWS

/-- Decode one string escape character. -/
def unescChar (c : Char) : Option Char :=
  if c = '"' then some '"'
  else if c = '\\' then some '\\'
  else if c = '/' then some '/'
  else if c = 'n' then some '\n'
  else if c = 't' then some '\t'
  else if c = 'r' then some '\r'
  else if c = 'b' then some '\x08'
  else if c = 'f' then some '\x0c'
  else none

/-- Parse the body of a JSON string literal (after the opening quote):
decoded content plus the input after the closing quote.  Unescaped control
characters are rejected, as in `json.loads` strict mode. -/
def parseStrBody : List Char → Option (List Char × List Char)
  | [] => none
  | '"' :: rest => some ([], rest)
  | '\\' :: [] => none
  | '\\' :: e :: rest =>
    match unescChar e with
    | some c =>
      match parseStrBody rest with
      | some (s, r) => some (c :: s, r)
      | none => none
    | none => none
  | c :: rest =>
    if c.toNat < 32 then none
    else
      match parseStrBody rest with
      | some (s, r) => some (c :: s, r)
      | none => none

/-- Accumulate a decimal numeral from the front of the input. -/
def parseDigits : Nat → List Char → Nat × List Char
  | acc, [] => (acc, [])
  | acc, c :: rest =>
    if c.isDigit then parseDigits (acc * 10 + (c.toNat - 48)) rest
    else (acc, c :: rest)

/-- Expect the given literal characters at the front of the input. -/
def expectChars : List Char → List Char → Option (List Char)
  | [], s => some s
  | _ :: _, [] => none
  | c :: cs, d :: s => if c = d then expectChars cs s else none

/-- The input does not start with a decimal digit (so a numeral parse
stops exactly at its end). -/
def noDigitHead : List Char → Bool
  | [] => true
  | c :: _ => !c.isDigit

mutual

/-- Recursive-descent JSON value parser (the model of `json.loads`'s
grammar on the sublanguage of `PyVal`), with explicit fuel so that the
definition is structural.  Returns the parsed value and the rest of the
input. -/
def parseVal : Nat → List Char → Option (PyVal × List Char)
  | 0, _ => none
  | fuel + 1, input =>
    match skipWS input with
    | [] => none
    | c :: rest =>
      if c = 'n' then
        match expectChars ['u', 'l', 'l'] rest with
        | some r => some (.null, r)
        | none => none
      else if c = 't' then
        match expectChars ['r', 'u', 'e'] rest with
        | some r => some (.boolean true, r)
        | none => none
      else if c = 'f' then
        match expectChars ['a', 'l', 's', 'e'] rest with
        | some r => some (.boolean false, r)
        | none => none
      else if c = '"' then
        match parseStrBody rest with
        | some (s, r) => some (.str s, r)
        | none => none
      else if c = '[' then
        match skipWS rest with
        | [] => none
        | d :: r2 =>
          if d = ']' then some (.arr [], r2)
          else
            match parseElems fuel (d :: r2) with
            | some (l, r) => some (.arr l, r)
            | none => none
      else if c = '\x7b' then
        match skipWS rest with
        | [] => none
        | d :: r2 =>
          if d = '\x7d' then some (.obj [], r2)
          else
            match parseMembers fuel (d :: r2) with
            | some (m, r) => some (.obj m, r)
            | none => none
      else if c = '-' then
        match rest with
        | [] => none
        | d :: _ =>
          if d.isDigit then
            match parseDigits 0 rest with
            | (n, r) => some (.num (-(n : Int)), r)
          else none
      else if c.isDigit then
        match parseDigits 0 (c :: rest) with
        | (n, r) => some (.num (n : Int), r)
      else none

/-- Parse one or more `','`-separated array elements followed by `']'`. -/
def parseElems : Nat → List Char → Option (List PyVal × List Char)
  | 0, _ => none
  | fuel + 1, input =>
    match parseVal fuel input with
    | none => none
    | some (v, r1) =>
      match skipWS r1 with
      | [] => none
      | d :: r2 =>
        if d = ',' then
          match parseElems fuel r2 with
          | some (l, r) => some (v :: l, r)
          | none => none
        else if d = ']' then some ([v], r2)
        else none

/-- Parse one or more `','`-separated object members followed by the
closing brace. -/
def parseMembers : Nat → List Char → Option (List (List Char × PyVal) × List Char)
  | 0, _ => none
  | fuel + 1, input =>
    match skipWS input with
    | [] => none
    | c :: r0 =>
      if c = '"' then
        match parseStrBody r0 with
        | none => none
        | some (k, r1) =>
          match skipWS r1 with
          | [] => none
          | d :: r2 =>
            if d = ':' then
              match parseVal fuel r2 with
              | none => none
              | some (v, r3) =>
                match skipWS r3 with
                | [] => none
                | e :: r4 =>
                  if e = ',' then
                    match parseMembers fuel r4 with
                    | some (m, r) => some ((k, v) :: m, r)
                    | none => none
                  else if e = '\x7d' then some ([(k, v)], r4)
                  else none
            else none
      else none

end

/-- Model of `json.loads`: parse one value and require only whitespace to
remain.  Fuel `length + 1` dominates the recursion depth of any successful
parse. -/
def json_loads (s : List Char) : Option PyVal :=
  match parseVal (s.length + 1) s with
  | some (v, rest) => if skipWS rest = [] then some v else none
  | none => none

/-- Model of `re.search(r'\[.*\]', s, flags=re.DOTALL)`: the leftmost
possible start of a match is the first `'['`, and the greedy `.*` (which
crosses newlines under DOTALL) makes the match end at the last `']'` of
the whole input.  If no `']'` occurs after the first `'['` then no later
start can match either and the search fails. -/
def regexSearchBracket (s : List Char) : Option (List Char) :=
  match s.dropWhile (fun c => c != '[') with
  | [] => none
  | c :: rest =>
    match (c :: rest).reverse.dropWhile (fun c => c != ']') with
    | [] => none
    | c2 :: tl2 => some ((c2 :: tl2).reverse)

/-- `extract_json` from `project.py` (lines 64-71): find the first greedy
`\[.*\]` match and try to parse it as JSON; `None` when there is no match
or parsing fails (the exception is caught and reported). -/
def extract_json (ai_response : List Char) : Option PyVal :=
  match regexSearchBracket ai_response with
  | some m => json_loads m
  | none => none

/-- Python truthiness of a parsed JSON value (`if st.session_state.quiz_data:`,
`if not correct_answers:`). -/
def pvTruthy : PyVal → Bool
  | .null => false
  | .boolean b => b
  | .num i => i != 0
  | .str s => !s.isEmpty
  | .arr l => !l.isEmpty
  | .obj m => !m.isEmpty

/-- Python `len()` on the values it is applied to in `main`. -/
def pvLen : PyVal → Nat
  | .str s => s.length
  | .arr l => l.length
  | .obj m => m.length
  | _ => 0

/-- The quiz-relevant slice of `st.session_state`. -/
structure QuizSession where
  quiz_data : Option PyVal
  user_answers : List (List Char)

/-- The quiz-generation handler of `main` (`project.py` lines 199-206):
`st.session_state.quiz_data` is unconditionally overwritten with the
extraction result; `user_answers` is reset to all-empty strings of the
quiz's length only when that result is truthy (otherwise an error message
is shown and `user_answers` is left alone). -/
def generateStep (st : QuizSession) (ai_response : List Char) : QuizSession :=
  match extract_json ai_response with
  | some v =>
    if pvTruthy v then
      { quiz_data := some v, user_answers := List.replicate (pvLen v) [] }
    else
      { quiz_data := some v, user_answers := st.user_answers }
  | none => { quiz_data := none, user_answers := st.user_answers }

/-- `list(a.values())[0]`: the first value of a mapping, `none` modelling
the unhandled `AttributeError` (not a mapping) or `IndexError` (empty
mapping). -/
def firstValue : PyVal → Option PyVal
  | .obj [] => none
  | .obj ((_, v) :: _) => some v
  | _ => none

/-- `isinstance(·, dict)`. -/
def isDict : PyVal → Bool
  | .obj _ => true
  | _ => false

/-- The comprehension `[list(a.values())[0] for a in correct_answers]`:
first values of every element, `none` when any element raises. -/
def firstValues : List PyVal → Option (List PyVal)
  | [] => some []
  | a :: tl =>
    match firstValue a, firstValues tl with
    | some v, some vs => some (v :: vs)
    | _, _ => none

/-- Lines 230-232 of `project.py`: the answer-key list is flattened only
when its FIRST element is a dict, in which case the list comprehension
takes the first value of every element, raising (modelled `none`) if some
element is not a non-empty mapping. -/
def flattenCorrect (l : List PyVal) : Option (List PyVal) :=
  match l with
  | [] => some []
  | a :: _ => if isDict a then firstValues l else some l

/-- Python `str()` on a parsed JSON value: identity on strings, decimal on
integers, `True`/`False`/`None` for the literals.  For containers `str`
yields the `repr` text, which differs from the JSON serialization only in
quoting style; the pipeline only ever inspects the leading character of
the result (`[` resp. the brace), which agrees, so the serialization
stands in for `repr` here. -/
def pyStr : PyVal → List Char
  | .str s => s
  | .num i => serInt i
  | .boolean true => ['T', 'r', 'u', 'e']
  | .boolean false => ['F', 'a', 'l', 's', 'e']
  | .null => ['N', 'o', 'n', 'e']
  | .arr l => serVal (.arr l)
  | .obj m => serVal (.obj m)

/-- `str(a).replace(")", "").replace(".", "")` of line 234: removing every
occurrence of a single-character substring is a filter. -/
def removePunct (s : List Char) : List Char :=
  (s.filter (fun c => c != ')')).filter (fun c => c != '.')

/-- Outcome of the submit handler: the parse-failure error message, an
unhandled exception, or a computed grading (score, normalized user
answers, normalized correct answers). -/
inductive GradeOutcome where
  | parseFailure : GradeOutcome
  | exception : GradeOutcome
  | graded : Nat → List (List Char) → List (List Char) → GradeOutcome

/-- The outcome computed by the submit handler of `main` (`project.py`
lines 218-251): extract the answer key; on a falsy result report a parse
failure; otherwise flatten when the first element is a dict, normalize
both the flattened key and the stored user answers, and compute the
score.  (The `some v` non-array branch is unreachable: `extract_json`
only ever returns arrays, see `extract_json_arr`.) -/
def gradeOutcome (st : QuizSession) (ai_answers : List Char) : GradeOutcome :=
  match extract_json ai_answers with
  | none => .parseFailure
  | some v =>
    if pvTruthy v then
      match v with
      | .arr ca =>
        match flattenCorrect ca with
        | none => .exception
        | some ca' =>
          let normalized := ca'.map (fun a => normalize_answer (removePunct (pyStr a)))
          let ua := st.user_answers.map normalize_answer
          .graded (calculate_score ua normalized) ua normalized
      | _ => .exception
    else .parseFailure

/-- The submit handler: no branch of `project.py` lines 218-261 writes to
`st.session_state`, so the session component of the step is the unchanged
input session, paired with the computed outcome. -/
def gradeStep (st : QuizSession) (ai_answers : List Char) : QuizSession × GradeOutcome :=
  (st, gradeOutcome st ai_answers)

-- ======================================================================
-- Helper lemmas
-- ======================================================================

theorem nwHead_dropWhile (l : List Char) : nwHead (l.dropWhile isWS) = true := by
  induction l with
  | nil => rfl
  | cons c rest ih =>
    by_cases h : isWS c
    · simpa [List.dropWhile_cons, h] using ih
    · simp [List.dropWhile_cons, h, nwHead]

theorem nwHead_of_append (t r q : List Char) (h : t ++ r = q)
    (hq : nwHead q = true) : nwHead t = true := by
  cases t with
  | nil => rfl
  | cons c rest => cases h; simpa [nwHead] using hq

theorem nwLast_cons (c : Char) (rest : List Char) (h : rest ≠ []) :
    nwLast (c :: rest) = nwLast rest := by
  cases rest with
  | nil => exact absurd rfl h
  | cons d rest' => rfl

theorem nwHead_reverse (l : List Char) : nwHead l.reverse = nwLast l := by
  induction l with
  | nil => rfl
  | cons c rest ih =>
    cases rest with
    | nil => simp [nwHead, nwLast]
    | cons d rest' =>
      have hne : (d :: rest').reverse ≠ [] := by simp
      rw [List.reverse_cons, nwLast_cons c (d :: rest') (by simp)]
      rw [← ih]
      cases hrev : (d :: rest').reverse with
      | nil => exact absurd hrev hne
      | cons e tl => simp [nwHead]

theorem dropWhile_eq_self_of_nwHead (l : List Char) (h : nwHead l = true) :
    l.dropWhile isWS = l := by
  cases l with
  | nil => rfl
  | cons c rest =>
    simp only [nwHead, Bool.not_eq_true'] at h
    simp [List.dropWhile_cons, h]

theorem nwHead_pyStrip (s : List Char) : nwHead (pyStrip s) = true := by
  unfold pyStrip
  set q := s.dropWhile isWS with hq
  have h1 : q.reverse.takeWhile isWS ++ q.reverse.dropWhile isWS = q.reverse :=
    List.takeWhile_append_dropWhile isWS q.reverse
  have h2 : (q.reverse.dropWhile isWS).reverse ++ (q.reverse.takeWhile isWS).reverse
      = q := by
    rw [← List.reverse_append, h1, List.reverse_reverse]
  exact nwHead_of_append _ _ _ h2 (nwHead_dropWhile s)

theorem nwLast_pyStrip (s : List Char) : nwLast (pyStrip s) = true := by
  rw [← nwHead_reverse]
  unfold pyStrip
  rw [List.reverse_reverse]
  exact nwHead_dropWhile _

theorem collapseAux_ws_true {c : Char} (rest : List Char) (h : isWS c = true) :
    collapseAux true (c :: rest) = collapseAux true rest := by
  simp [collapseAux, h]

theorem collapseAux_ws_false {c : Char} (rest : List Char) (h : isWS c = true) :
    collapseAux false (c :: rest) = ' ' :: collapseAux true rest := by
  simp [collapseAux, h]

theorem collapseAux_nws (b : Bool) {c : Char} (rest : List Char)
    (h : isWS c = false) :
    collapseAux b (c :: rest) = c :: collapseAux false rest := by
  cases b <;> simp [collapseAux, h]

theorem good_cons_ws {c : Char} (rest : List Char) (h : isWS c = true) :
    good (c :: rest)
      = ((c == ' ')
          && (match rest with | [] => false | d :: _ => !(isWS d))
          && good rest) := by
  simp [good, h]

theorem good_cons_nws {c : Char} (rest : List Char) (h : isWS c = false) :
    good (c :: rest) = good rest := by
  simp [good, h]

theorem collapseAux_ne_nil_head (t : List Char) (h : nwLast t = true)
    (hne : t ≠ []) :
    collapseAux true t ≠ [] ∧ nwHead (collapseAux true t) = true := by
  induction t with
  | nil => exact absurd rfl hne
  | cons c rest ih =>
    by_cases hc : isWS c
    · have hrne : rest ≠ [] := by
        intro hr
        subst hr
        simp [nwLast, hc] at h
      rw [nwLast_cons c rest hrne] at h
      rw [collapseAux_ws_true rest hc]
      exact ih h hrne
    · rw [collapseAux_nws true rest (by simpa using hc)]
      simp [nwHead, hc]

theorem collapseAux_good (t : List Char) (b : Bool) (h : nwLast t = true) :
    good (collapseAux b t) = true := by
  induction t generalizing b with
  | nil => cases b <;> rfl
  | cons c rest ih =>
    by_cases hc : isWS c
    · have hrne : rest ≠ [] := by
        intro hr
        subst hr
        simp [nwLast, hc] at h
      rw [nwLast_cons c rest hrne] at h
      cases b with
      | true =>
        rw [collapseAux_ws_true rest hc]
        exact ih true h
      | false =>
        rw [collapseAux_ws_false rest hc]
        have hM := collapseAux_ne_nil_head rest h hrne
        cases hMv : collapseAux true rest with
        | nil => exact absurd hMv hM.1
        | cons e tl =>
          rw [hMv] at hM
          simp only [nwHead, Bool.not_eq_true'] at hM
          have hgood := ih true h
          rw [hMv] at hgood
          rw [good_cons_ws (e :: tl) (by simp [isWS])]
          simp [hM.2, hgood]
    · have hc' : isWS c = false := by simpa using hc
      have hkey : good (c :: collapseAux false rest) = true := by
        rw [good_cons_nws _ hc']
        by_cases hrne : rest = []
        · subst hrne; rfl
        · rw [nwLast_cons c rest hrne] at h
          exact ih false h
      rw [collapseAux_nws b rest hc']
      exact hkey

theorem good_nwLast (m : List Char) (h : good m = true) : nwLast m = true := by
  induction m with
  | nil => rfl
  | cons c rest ih =>
    cases rest with
    | nil =>
      by_cases hc : isWS c
      · rw [good_cons_ws [] hc] at h
        simp at h
      · simp [nwLast, hc]
    | cons d rest' =>
      rw [nwLast_cons c (d :: rest') (by simp)]
      by_cases hc : isWS c
      · rw [good_cons_ws (d :: rest') hc] at h
        simp only [Bool.and_eq_true] at h
        exact ih h.2
      · rw [good_cons_nws (d :: rest') (by simpa using hc)] at h
        exact ih h

theorem good_collapse_fix (m : List Char) (h : good m = true) :
    collapseAux false m = m ∧ (nwHead m = true → collapseAux true m = m) := by
  induction m with
  | nil => exact ⟨rfl, fun _ => rfl⟩
  | cons c rest ih =>
    by_cases hc : isWS c
    · rw [good_cons_ws rest hc] at h
      simp only [Bool.and_eq_true] at h
      obtain ⟨⟨hsp, hrest⟩, hg⟩ := h
      have hcsp : c = ' ' := by simpa using hsp
      cases rest with
      | nil => simp at hrest
      | cons d rest' =>
        simp only [Bool.not_eq_true'] at hrest
        have hfix := (ih hg).2 (by simp [nwHead, hrest])
        constructor
        · rw [collapseAux_ws_false _ hc, hfix, hcsp]
        · intro hh
          simp [nwHead, hc] at hh
    · have hc' : isWS c = false := by simpa using hc
      rw [good_cons_nws rest hc'] at h
      have hfix := (ih h).1
      constructor
      · rw [collapseAux_nws false rest hc', hfix]
      · intro _
        rw [collapseAux_nws true rest hc', hfix]

theorem good_pyStrip_fix (m : List Char) (hh : nwHead m = true)
    (hg : good m = true) : pyStrip m = m := by
  unfold pyStrip
  rw [dropWhile_eq_self_of_nwHead m hh]
  rw [dropWhile_eq_self_of_nwHead m.reverse
    (by rw [nwHead_reverse]; exact good_nwLast m hg)]
  exact List.reverse_reverse m

theorem nwHead_collapseAux_false (t : List Char) (h : nwHead t = true) :
    nwHead (collapseAux false t) = true := by
  cases t with
  | nil => rfl
  | cons c rest =>
    simp only [nwHead, Bool.not_eq_true'] at h
    simp [collapseAux, h, nwHead]

/-- The general shape of `calculate_score`: it counts the agreeing indices
among the first `min` of the two lengths (Python's `zip` truncates). -/
theorem calculate_score_min_count (ua ca : List (List Char)) :
    calculate_score ua ca =
      (List.range (min ua.length ca.length)).countP
        (fun i => ua.getD i [] == ca.getD i []) := by
  induction ua generalizing ca with
  | nil => simp [calculate_score]
  | cons a as ih =>
    cases ca with
    | nil => simp [calculate_score]
    | cons b bs =>
      have hmin : min (a :: as).length (b :: bs).length
          = (min as.length bs.length) + 1 := by
        simp [Nat.succ_min_succ]
      rw [hmin, List.range_succ_eq_map, List.countP_cons, List.countP_map]
      have hrw : calculate_score (a :: as) (b :: bs)
          = (if a = b then 1 else 0) + calculate_score as bs := by
        simp [calculate_score, Nat.add_comm]
      rw [hrw, ih bs]
      have hfun : (List.range (min as.length bs.length)).countP
            ((fun i => (a :: as).getD i [] == (b :: bs).getD i []) ∘ Nat.succ)
          = (List.range (min as.length bs.length)).countP
            (fun i => as.getD i [] == bs.getD i []) := by
        apply List.countP_congr
        intro i _
        simp [Function.comp, List.getD_cons_succ]
      rw [hfun]
      by_cases hab : a = b
      · simp [hab, Nat.add_comm]
      · have : ((a :: as).getD 0 [] == (b :: bs).getD 0 []) = false := by
          simp [List.getD_cons_zero, hab]
        simp [hab, this]

-- ======================================================================
-- Decimal numerals: printing and parsing
-- ======================================================================

theorem natDigitsAux_acc (fuel : Nat) : ∀ n acc,
    natDigitsAux fuel n acc = natDigitsAux fuel n [] ++ acc := by
  induction fuel with
  | zero => intro n acc; rfl
  | succ f ih =>
    intro n acc
    by_cases h : n < 10
    · simp [natDigitsAux, h]
    · simp only [natDigitsAux, if_neg h]
      rw [ih (n / 10) (Nat.digitChar (n % 10) :: acc), ih (n / 10) [Nat.digitChar (n % 10)]]
      simp

theorem natDigitsAux_irrel : ∀ f1 f2 n, n < f1 → n < f2 →
    natDigitsAux f1 n [] = natDigitsAux f2 n [] := by
  intro f1
  induction f1 with
  | zero => intro f2 n h1 h2; omega
  | succ a ih =>
    intro f2 n h1 h2
    cases f2 with
    | zero => omega
    | succ b =>
      by_cases h : n < 10
      · simp [natDigitsAux, h]
      · simp only [natDigitsAux, if_neg h]
        rw [natDigitsAux_acc a, natDigitsAux_acc b]
        rw [ih b (n / 10) (by omega) ?hb]
        case hb =>
          have : n / 10 < n := Nat.div_lt_self (by omega) (by omega)
          omega

theorem natDigits_lt {n : Nat} (h : n < 10) : natDigits n = [Nat.digitChar n] := by
  unfold natDigits
  simp [natDigitsAux, h]

theorem natDigits_ge {n : Nat} (h : 10 ≤ n) :
    natDigits n = natDigits (n / 10) ++ [Nat.digitChar (n % 10)] := by
  unfold natDigits
  have h1 : ¬ n < 10 := by omega
  simp only [natDigitsAux, if_neg h1]
  rw [natDigitsAux_acc n]
  congr 1
  have hlt : n / 10 < n := Nat.div_lt_self (by omega) (by omega)
  exact natDigitsAux_irrel n (n / 10 + 1) (n / 10) (by omega) (by omega)

theorem digitChar_isDigit {d : Nat} (h : d < 10) : (Nat.digitChar d).isDigit = true := by
  interval_cases d <;> decide

theorem digitChar_toNat {d : Nat} (h : d < 10) : (Nat.digitChar d).toNat - 48 = d := by
  interval_cases d <;> decide

theorem natDigits_head (n : Nat) : ∃ d t, natDigits n = d :: t ∧ d.isDigit = true := by
  induction n using Nat.strong_induction_on with
  | _ n ih =>
    by_cases h : n < 10
    · exact ⟨Nat.digitChar n, [], natDigits_lt h, digitChar_isDigit h⟩
    · obtain ⟨d, t, hd, hdig⟩ := ih (n / 10) (Nat.div_lt_self (by omega) (by omega))
      refine ⟨d, t ++ [Nat.digitChar (n % 10)], ?_, hdig⟩
      rw [natDigits_ge (by omega), hd]
      rfl

theorem parseDigits_stop (acc : Nat) (rest : List Char)
    (h : noDigitHead rest = true) : parseDigits acc rest = (acc, rest) := by
  cases rest with
  | nil => rfl
  | cons c t =>
    simp only [noDigitHead, Bool.not_eq_true'] at h
    simp [parseDigits, h]

theorem parseDigits_natDigits : ∀ n acc rest,
    parseDigits acc (natDigits n ++ rest)
      = parseDigits (acc * 10 ^ (natDigits n).length + n) rest := by
  intro n
  induction n using Nat.strong_induction_on with
  | _ n ih =>
    intro acc rest
    by_cases h : n < 10
    · rw [natDigits_lt h]
      simp only [List.cons_append, List.nil_append, parseDigits,
        digitChar_isDigit h, if_true]
      rw [digitChar_toNat h]
      norm_num
    · have hmod : n % 10 < 10 := Nat.mod_lt n (by omega)
      have hlen : (natDigits n).length = (natDigits (n / 10)).length + 1 := by
        rw [natDigits_ge (by omega)]
        simp
      rw [natDigits_ge (by omega), List.append_assoc]
      have hsing : [Nat.digitChar (n % 10)] ++ rest = Nat.digitChar (n % 10) :: rest := rfl
      rw [hsing, ih (n / 10) (Nat.div_lt_self (by omega) (by omega)) acc
        (Nat.digitChar (n % 10) :: rest)]
      simp only [parseDigits, digitChar_isDigit hmod, if_true]
      rw [digitChar_toNat hmod]
      congr 1
      simp only [List.length_append, List.length_cons, List.length_nil]
      rw [pow_succ, ← Nat.mul_assoc]
      generalize acc * 10 ^ (natDigits (n / 10)).length = M
      omega

-- ======================================================================
-- Character classes and serialized head shapes
-- ======================================================================

theorem isDigit_ne {c : Char} (h : c.isDigit = true) (d : Char)
    (hd : d.isDigit = false) : c ≠ d := by
  intro he
  subst he
  rw [h] at hd
  exact Bool.noConfusion hd

theorem jsonWS_of_isDigit {c : Char} (h : c.isDigit = true) : jsonWS c = false := by
  have h1 : c ≠ ' ' := isDigit_ne h ' ' (by decide)
  have h2 : c ≠ '\t' := isDigit_ne h '\t' (by decide)
  have h3 : c ≠ '\n' := isDigit_ne h '\n' (by decide)
  have h4 : c ≠ '\r' := isDigit_ne h '\r' (by decide)
  simp [jsonWS, h1, h2, h3, h4]

theorem serVal_shape (v : PyVal) :
    ∃ c t, serVal v = c :: t ∧ jsonWS c = false ∧ c ≠ ']' := by
  cases v with
  | null => exact ⟨'n', _, rfl, by decide, by decide⟩
  | boolean b =>
    cases b with
    | false => exact ⟨'f', _, rfl, by decide, by decide⟩
    | true => exact ⟨'t', _, rfl, by decide, by decide⟩
  | num i =>
    by_cases h : i < 0
    · refine ⟨'-', natDigits i.natAbs, ?_, by decide, by decide⟩
      simp [serVal, serInt, h]
    · obtain ⟨d, t, hd, hdig⟩ := natDigits_head i.toNat
      refine ⟨d, t, ?_, jsonWS_of_isDigit hdig, isDigit_ne hdig ']' (by decide)⟩
      simp [serVal, serInt, h, hd]
  | str s => exact ⟨'"', _, rfl, by decide, by decide⟩
  | arr l => exact ⟨'[', _, rfl, by decide, by decide⟩
  | obj m => exact ⟨'\x7b', _, rfl, by decide, by decide⟩

theorem serElems_head (l : List PyVal) (h : l ≠ []) :
    ∃ c t, serElems l = c :: t ∧ jsonWS c = false ∧ c ≠ ']' := by
  match l with
  | [v] =>
    obtain ⟨c, t, hv, h1, h2⟩ := serVal_shape v
    exact ⟨c, t, by simp [serElems, hv], h1, h2⟩
  | v :: w :: tl =>
    obtain ⟨c, t, hv, h1, h2⟩ := serVal_shape v
    exact ⟨c, t ++ ',' :: ' ' :: serElems (w :: tl), by simp [serElems, hv], h1, h2⟩

theorem serMembers_head (m : List (List Char × PyVal)) (h : m ≠ []) :
    ∃ t, serMembers m = '"' :: t := by
  match m with
  | [(k, v)] =>
    exact ⟨(k.map escChar).flatten ++ '"' :: ':' :: ' ' :: serVal v,
      by simp [serMembers, serStr]⟩
  | (k, v) :: p :: tl =>
    exact ⟨(k.map escChar).flatten
        ++ '"' :: ':' :: ' ' :: (serVal v ++ ',' :: ' ' :: serMembers (p :: tl)),
      by simp [serMembers, serStr]⟩

theorem skipWS_cons_space (s : List Char) : skipWS (' ' :: s) = skipWS s := by
  simp [skipWS, List.dropWhile_cons, jsonWS]

theorem parseVal_space (fuel : Nat) (s : List Char) :
    parseVal fuel (' ' :: s) = parseVal fuel s := by
  cases fuel with
  | zero => rfl
  | succ f => simp only [parseVal, skipWS_cons_space]

theorem parseElems_space (fuel : Nat) (s : List Char) :
    parseElems fuel (' ' :: s) = parseElems fuel s := by
  cases fuel with
  | zero => rfl
  | succ f => simp only [parseElems, parseVal_space]

theorem parseMembers_space (fuel : Nat) (s : List Char) :
    parseMembers fuel (' ' :: s) = parseMembers fuel s := by
  cases fuel with
  | zero => rfl
  | succ f => simp only [parseMembers, skipWS_cons_space]

theorem parseStrBody_ser (s : List Char) (hc : cleanStr s = true) :
    ∀ rest, parseStrBody ((s.map escChar).flatten ++ '"' :: rest) = some (s, rest) := by
  induction s with
  | nil => intro rest; rfl
  | cons c cs ih =>
    intro rest
    simp only [cleanStr, List.all_cons, Bool.and_eq_true] at hc
    have hcs : cleanStr cs = true := hc.2
    have hcc := hc.1
    by_cases h1 : c = '"'
    · subst h1
      simp [escChar, parseStrBody, unescChar, ih hcs]
    · by_cases h2 : c = '\\'
      · subst h2
        simp [escChar, parseStrBody, unescChar, ih hcs]
      · by_cases h3 : c = '\n'
        · subst h3
          simp [escChar, parseStrBody, unescChar, ih hcs]
        · by_cases h4 : c = '\t'
          · subst h4
            simp [escChar, parseStrBody, unescChar, ih hcs]
          · by_cases h5 : c = '\r'
            · subst h5
              simp [escChar, parseStrBody, unescChar, ih hcs]
            · have hge : ¬ c.toNat < 32 := by
                simp only [Bool.or_eq_true, decide_eq_true_eq] at hcc
                rcases hcc with ((h | h) | h) | h
                · omega
                · exact absurd h h3
                · exact absurd h h4
                · exact absurd h h5
              simp [escChar, h1, h2, h3, h4, h5, parseStrBody, hge, ih hcs]

theorem skipWS_nonWS {c : Char} {t : List Char} (h : jsonWS c = false) :
    skipWS (c :: t) = c :: t := by
  simp [skipWS, List.dropWhile_cons, h]

theorem szVal_pos (v : PyVal) : 1 ≤ szVal v := by
  cases v <;> simp [szVal]

/-- Round trip of the parser against the canonical serialization, by
induction on the parser's fuel. -/
theorem parse_ser_master : ∀ fuel,
    (∀ v rest, cleanVal v = true → szVal v ≤ fuel → noDigitHead rest = true →
      parseVal fuel (serVal v ++ rest) = some (v, rest))
    ∧ (∀ l rest, cleanElems l = true → l ≠ [] → szElems l ≤ fuel →
      parseElems fuel (serElems l ++ ']' :: rest) = some (l, rest))
    ∧ (∀ m rest, cleanMembers m = true → m ≠ [] → szMembers m ≤ fuel →
      parseMembers fuel (serMembers m ++ '\x7d' :: rest) = some (m, rest)) := by
  intro fuel
  induction fuel with
  | zero =>
    refine ⟨?_, ?_, ?_⟩
    · intro v rest _ hsz _
      have := szVal_pos v
      omega
    · intro l rest _ hne hsz
      cases l with
      | nil => exact absurd rfl hne
      | cons v tl =>
        simp only [szElems] at hsz
        omega
    · intro m rest _ hne hsz
      match m with
      | [] => exact absurd rfl hne
      | (k, v) :: tl =>
        simp only [szMembers] at hsz
        omega
  | succ f ihf =>
    obtain ⟨ihVal, ihElems, ihMembers⟩ := ihf
    refine ⟨?_, ?_, ?_⟩
    · intro v rest hcl hsz hnd
      cases v with
      | null => rfl
      | boolean b => cases b <;> rfl
      | num i =>
        by_cases hneg : i < 0
        · obtain ⟨d, t, hd, hdig⟩ := natDigits_head i.natAbs
          have hpd : parseDigits 0 (d :: (t ++ rest)) = (i.natAbs, rest) := by
            have hstep := parseDigits_natDigits i.natAbs 0 rest
            rw [hd] at hstep
            simp only [List.cons_append] at hstep
            rw [hstep]
            simp only [Nat.zero_mul, Nat.zero_add]
            exact parseDigits_stop _ _ hnd
          simp only [serVal, serInt, if_pos hneg, List.cons_append]
          rw [hd]
          simp only [parseVal]
          rw [skipWS_nonWS (by decide)]
          simp only [List.cons_append]
          simp [hdig, hpd]
          simp [abs_of_neg hneg]
        · obtain ⟨d, t, hd, hdig⟩ := natDigits_head i.toNat
          have hpd : parseDigits 0 (d :: (t ++ rest)) = (i.toNat, rest) := by
            have hstep := parseDigits_natDigits i.toNat 0 rest
            rw [hd] at hstep
            simp only [List.cons_append] at hstep
            rw [hstep]
            simp only [Nat.zero_mul, Nat.zero_add]
            exact parseDigits_stop _ _ hnd
          have hn' : d ≠ 'n' := isDigit_ne hdig 'n' (by decide)
          have ht' : d ≠ 't' := isDigit_ne hdig 't' (by decide)
          have hf' : d ≠ 'f' := isDigit_ne hdig 'f' (by decide)
          have hq' : d ≠ '"' := isDigit_ne hdig '"' (by decide)
          have hlb : d ≠ '[' := isDigit_ne hdig '[' (by decide)
          have hob : d ≠ '\x7b' := isDigit_ne hdig '\x7b' (by decide)
          have hmi : d ≠ '-' := isDigit_ne hdig '-' (by decide)
          simp only [serVal, serInt, if_neg hneg]
          rw [hd]
          simp only [List.cons_append]
          simp only [parseVal]
          rw [skipWS_nonWS (jsonWS_of_isDigit hdig)]
          simp [hn', ht', hf', hq', hlb, hob, hmi, hdig, hpd]
          omega
      | str s =>
        have hb := parseStrBody_ser s (by simpa [cleanVal] using hcl) rest
        simp only [serVal, serStr, List.cons_append, List.append_assoc,
          List.singleton_append, List.nil_append]
        simp only [parseVal]
        rw [skipWS_nonWS (by decide)]
        simp [hb]
      | arr l =>
        cases l with
        | nil => rfl
        | cons v tl =>
          have hcl' : cleanElems (v :: tl) = true := by simpa [cleanVal] using hcl
          have hsz' : szElems (v :: tl) ≤ f := by
            simp only [szVal] at hsz
            omega
          obtain ⟨c, t, he, hw, hne'⟩ := serElems_head (v :: tl) (by simp)
          have hel : parseElems f (serElems (v :: tl) ++ ']' :: rest)
              = some (v :: tl, rest) := ihElems (v :: tl) rest hcl' (by simp) hsz'
          rw [he] at hel
          simp only [List.cons_append] at hel
          simp only [serVal, List.cons_append, List.append_assoc,
            List.singleton_append, List.nil_append]
          simp only [parseVal]
          rw [skipWS_nonWS (by decide)]
          simp [he, skipWS_nonWS hw, if_neg hne', hel]
      | obj m =>
        cases m with
        | nil => rfl
        | cons p tl =>
          have hcl' : cleanMembers (p :: tl) = true := by simpa [cleanVal] using hcl
          have hsz' : szMembers (p :: tl) ≤ f := by
            simp only [szVal] at hsz
            omega
          obtain ⟨t, he⟩ := serMembers_head (p :: tl) (by simp)
          have hml : parseMembers f (serMembers (p :: tl) ++ '\x7d' :: rest)
              = some (p :: tl, rest) := ihMembers (p :: tl) rest hcl' (by simp) hsz'
          rw [he] at hml
          simp only [List.cons_append] at hml
          simp only [serVal, List.cons_append, List.append_assoc,
            List.singleton_append, List.nil_append]
          simp only [parseVal]
          rw [skipWS_nonWS (by decide)]
          simp [he, skipWS_nonWS (show jsonWS '"' = false by decide), hml]
    · intro l rest hcl hne hsz
      match l with
      | [v] =>
        have hclv : cleanVal v = true := by
          simp only [cleanElems, Bool.and_eq_true] at hcl
          exact hcl.1
        have hszv : szVal v ≤ f := by
          simp only [szElems] at hsz
          omega
        simp only [serElems]
        simp only [parseElems]
        rw [ihVal v (']' :: rest) hclv hszv rfl]
        simp [skipWS_nonWS (show jsonWS ']' = false by decide)]
      | v :: w :: tl =>
        simp only [cleanElems, Bool.and_eq_true] at hcl
        have hszv : szVal v ≤ f := by
          simp only [szElems] at hsz
          omega
        have hszw : szElems (w :: tl) ≤ f := by
          simp only [szElems] at hsz ⊢
          omega
        have hel : parseElems f (serElems (w :: tl) ++ ']' :: rest)
            = some (w :: tl, rest) :=
          ihElems (w :: tl) rest (by simp [cleanElems, hcl.2.1, hcl.2.2]) (by simp) hszw
        simp only [serElems, List.append_assoc, List.cons_append]
        simp only [parseElems]
        rw [ihVal v (',' :: ' ' :: (serElems (w :: tl) ++ ']' :: rest)) hcl.1 hszv rfl]
        simp [skipWS_nonWS (show jsonWS ',' = false by decide), parseElems_space, hel]
      | [] =>
        exact absurd rfl hne
    · intro m rest hcl hne hsz
      match m with
      | [] => exact absurd rfl hne
      | [(k, v)] =>
        simp only [cleanMembers, Bool.and_eq_true] at hcl
        have hszv : szVal v ≤ f := by
          simp only [szMembers] at hsz
          omega
        have hbody := parseStrBody_ser k hcl.1.1
          (':' :: ' ' :: (serVal v ++ '\x7d' :: rest))
        have hv := ihVal v ('\x7d' :: rest) hcl.1.2 hszv rfl
        simp only [serMembers, serStr, List.append_assoc, List.cons_append,
          List.singleton_append, List.nil_append]
        simp only [parseMembers]
        rw [skipWS_nonWS (by decide)]
        simp [hbody, skipWS_nonWS (show jsonWS ':' = false by decide),
          parseVal_space, hv, skipWS_nonWS (show jsonWS '\x7d' = false by decide)]
      | (k, v) :: q :: tl =>
        simp only [cleanMembers, Bool.and_eq_true] at hcl
        have hszv : szVal v ≤ f := by
          simp only [szMembers] at hsz
          omega
        have hsztl : szMembers (q :: tl) ≤ f := by
          simp only [szMembers] at hsz ⊢
          omega
        have hbody := parseStrBody_ser k hcl.1.1
          (':' :: ' ' :: (serVal v ++ ',' :: ' ' :: (serMembers (q :: tl) ++ '\x7d' :: rest)))
        have hv := ihVal v
          (',' :: ' ' :: (serMembers (q :: tl) ++ '\x7d' :: rest)) hcl.1.2 hszv rfl
        have hmtl : parseMembers f (serMembers (q :: tl) ++ '\x7d' :: rest)
            = some (q :: tl, rest) :=
          ihMembers (q :: tl) rest
            (by simp [cleanMembers, hcl.2.1, hcl.2.2]) (by simp) hsztl
        simp only [serMembers, serStr, List.append_assoc, List.cons_append,
          List.singleton_append, List.nil_append]
        simp only [parseMembers]
        rw [skipWS_nonWS (by decide)]
        simp [hbody, skipWS_nonWS (show jsonWS ':' = false by decide),
          parseVal_space, hv, skipWS_nonWS (show jsonWS ',' = false by decide),
          parseMembers_space, hmtl]

/-- The fuel a value needs is dominated by the length of its
serialization (so `length + 1` fuel always suffices). -/
theorem sz_le_len_master : ∀ N,
    (∀ v, szVal v ≤ N → szVal v ≤ (serVal v).length)
    ∧ (∀ l, szElems l ≤ N → szElems l ≤ (serElems l).length + 1)
    ∧ (∀ m, szMembers m ≤ N → szMembers m ≤ (serMembers m).length + 1) := by
  intro N
  induction N with
  | zero =>
    refine ⟨?_, ?_, ?_⟩
    · intro v h
      have := szVal_pos v
      omega
    · intro l h
      cases l with
      | nil => simp [szElems]
      | cons v tl =>
        simp only [szElems] at h
        omega
    · intro m h
      match m with
      | [] => simp [szMembers]
      | (k, v) :: tl =>
        simp only [szMembers] at h
        omega
  | succ N ihN =>
    obtain ⟨ihV, ihE, ihM⟩ := ihN
    refine ⟨?_, ?_, ?_⟩
    · intro v hv
      cases v with
      | null => simp [szVal, serVal]
      | boolean b => cases b <;> simp [szVal, serVal]
      | num i =>
        obtain ⟨d, t, hd, _⟩ := natDigits_head i.natAbs
        obtain ⟨d2, t2, hd2, _⟩ := natDigits_head i.toNat
        by_cases h : i < 0 <;> simp [szVal, serVal, serInt, h, hd, hd2]
      | str s =>
        simp [szVal, serVal, serStr]
      | arr l =>
        cases l with
        | nil => simp [szVal, szElems, serVal, serElems]
        | cons w tl =>
          have hE : szElems (w :: tl) ≤ (serElems (w :: tl)).length + 1 :=
            ihE (w :: tl) (by simp only [szVal] at hv; omega)
          simp only [szVal, serVal, List.length_cons, List.length_append,
            List.length_nil]
          omega
      | obj m =>
        match m with
        | [] => simp [szVal, szMembers, serVal, serMembers]
        | q :: tl =>
          have hM : szMembers (q :: tl) ≤ (serMembers (q :: tl)).length + 1 :=
            ihM (q :: tl) (by simp only [szVal] at hv; omega)
          simp only [szVal, serVal, List.length_cons, List.length_append,
            List.length_nil]
          omega
    · intro l hl
      match l with
      | [] => simp [szElems]
      | [v] =>
        have hV := ihV v (by simp only [szElems] at hl; omega)
        simp only [szElems, serElems]
        omega
      | v :: w :: tl =>
        have hV := ihV v (by simp only [szElems] at hl; omega)
        have hE := ihE (w :: tl) (by simp only [szElems] at hl ⊢; omega)
        simp only [szElems] at hE ⊢
        simp only [serElems, List.length_append, List.length_cons]
        omega
    · intro m hm
      match m with
      | [] => simp [szMembers]
      | [(k, v)] =>
        have hV := ihV v (by simp only [szMembers] at hm; omega)
        simp only [szMembers, serMembers, List.length_append, List.length_cons]
        omega
      | (k, v) :: q :: tl =>
        have hV := ihV v (by simp only [szMembers] at hm; omega)
        have hM := ihM (q :: tl) (by simp only [szMembers] at hm ⊢; omega)
        simp only [szMembers] at hM ⊢
        simp only [serMembers, List.length_append, List.length_cons]
        omega

theorem szVal_le_len (v : PyVal) : szVal v ≤ (serVal v).length :=
  (sz_le_len_master (szVal v)).1 v le_rfl

/-- `json.loads` recovers a (clean) value from its canonical
serialization. -/
theorem json_loads_ser (v : PyVal) (hc : cleanVal v = true) :
    json_loads (serVal v) = some v := by
  unfold json_loads
  have hfuel : szVal v ≤ (serVal v).length + 1 :=
    le_trans (szVal_le_len v) (by omega)
  have h := (parse_ser_master ((serVal v).length + 1)).1 v [] hc hfuel rfl
  rw [List.append_nil] at h
  rw [h]
  rfl

theorem dropWhile_append_all {p : Char → Bool} (l X : List Char)
    (h : ∀ c ∈ l, p c = true) :
    List.dropWhile p (l ++ X) = List.dropWhile p X := by
  induction l with
  | nil => rfl
  | cons c t ih =>
    simp only [List.cons_append, List.dropWhile_cons, h c (List.mem_cons_self c t),
      if_true]
    exact ih (fun d hd => h d (List.mem_cons_of_mem c hd))

/-- The greedy `\[.*\]` search on text that embeds a bracketed block
between a `'['`-free left part and a `']'`-free right part returns exactly
the block. -/
theorem regexSearchBracket_embedded (p s t : List Char)
    (hp : '[' ∉ p) (hs : ']' ∉ s) :
    regexSearchBracket (p ++ ('[' :: t ++ [']']) ++ s)
      = some ('[' :: t ++ [']']) := by
  have h1 : List.dropWhile (fun c => c != '[') (p ++ ('[' :: t ++ [']']) ++ s)
      = '[' :: ((t ++ [']']) ++ s) := by
    rw [List.append_assoc]
    rw [dropWhile_append_all p _ (fun c hc => by
      simp only [bne_iff_ne, ne_eq, decide_eq_true_eq]
      intro he
      exact hp (he ▸ hc))]
    simp [List.dropWhile_cons]
  have h2 : ('[' :: ((t ++ [']']) ++ s)).reverse.dropWhile (fun c => c != ']')
      = ']' :: ('[' :: t).reverse := by
    have hshape : '[' :: ((t ++ [']']) ++ s) = (('[' :: t) ++ [']']) ++ s := by
      simp
    rw [hshape, List.reverse_append, List.reverse_append]
    rw [dropWhile_append_all s.reverse _ (fun c hc => by
      simp only [bne_iff_ne, ne_eq, decide_eq_true_eq]
      intro he
      exact hs (he ▸ (List.mem_reverse.mp hc)))]
    simp [List.dropWhile_cons]
  unfold regexSearchBracket
  rw [h1]
  simp only [h2]
  simp

theorem dropWhile_head_not {p : Char → Bool} :
    ∀ (s : List Char) (c : Char) (rest : List Char),
      s.dropWhile p = c :: rest → p c = false := by
  intro s
  induction s with
  | nil => intro c rest h; cases h
  | cons d t ih =>
    intro c rest h
    by_cases hd : p d
    · rw [List.dropWhile_cons, if_pos hd] at h
      exact ih c rest h
    · rw [List.dropWhile_cons, if_neg hd] at h
      cases h
      simpa using hd

/-- A successful bracket search yields a string starting with `'['`. -/
theorem regexSearchBracket_head (s m : List Char)
    (h : regexSearchBracket s = some m) : ∃ t, m = '[' :: t := by
  unfold regexSearchBracket at h
  split at h
  · cases h
  · rename_i c rest hdw
    have hc : (c != '[') = false := dropWhile_head_not s c rest hdw
    have hceq : c = '[' := by simpa using hc
    split at h
    · cases h
    · rename_i c2 tl2 hdw2
      simp only [Option.some.injEq] at h
      have hsplit : (c :: rest).reverse.takeWhile (fun c => c != ']') ++ (c2 :: tl2)
          = (c :: rest).reverse := by
        rw [← hdw2]
        exact List.takeWhile_append_dropWhile _ _
      have hrev : (c2 :: tl2).reverse
            ++ ((c :: rest).reverse.takeWhile (fun c => c != ']')).reverse
          = c :: rest := by
        rw [← List.reverse_append, hsplit, List.reverse_reverse]
      cases hyy : (c2 :: tl2).reverse with
      | nil =>
        exact absurd hyy (by simp)
      | cons y ys =>
        rw [hyy] at hrev
        simp only [List.cons_append, List.cons.injEq] at hrev
        refine ⟨ys, ?_⟩
        rw [← h, hyy, hrev.1, hceq]

/-- At a `'['` the parser can only produce an array. -/
theorem parseVal_lbracket (fuel : Nat) (t : List Char) (v : PyVal)
    (r : List Char) (h : parseVal fuel ('[' :: t) = some (v, r)) :
    ∃ l, v = PyVal.arr l := by
  cases fuel with
  | zero => cases h
  | succ f =>
    simp only [parseVal, skipWS_nonWS (show jsonWS '[' = false by decide)] at h
    simp at h
    split at h
    · cases h
    · split at h
      · simp only [Option.some.injEq, Prod.mk.injEq] at h
        exact ⟨[], h.1.symm⟩
      · split at h
        · rename_i l r' hpe
          simp only [Option.some.injEq, Prod.mk.injEq] at h
          exact ⟨l, h.1.symm⟩
        · cases h

/-- Whatever `extract_json` succeeds with is an array: the matched
substring starts with `'['`, and a JSON parse of text starting with `'['`
is an array. -/
theorem extract_json_arr (s : List Char) (v : PyVal)
    (h : extract_json s = some v) : ∃ l, v = PyVal.arr l := by
  unfold extract_json at h
  cases hrx : regexSearchBracket s with
  | none => rw [hrx] at h; cases h
  | some m =>
    rw [hrx] at h
    obtain ⟨m', hm⟩ := regexSearchBracket_head s m hrx
    subst hm
    simp only [] at h
    unfold json_loads at h
    split at h
    · rename_i pv prest hpv
      split at h
      · simp only [Option.some.injEq] at h
        subst h
        exact parseVal_lbracket _ m' _ prest hpv
      · cases h
    · cases h

-- ======================================================================
-- Claim theorems: normalizer, scorer, classification
-- ======================================================================

/-- C9: `collapseWhitespace` (`clean_text` in `project.py`) is idempotent:
applying it twice yields the same result as applying it once, for every
input string. -/
theorem C9_clean_text_idempotent (s : List Char) :
    clean_text (clean_text s) = clean_text s := by
  have hlast : nwLast (pyStrip s) = true := nwLast_pyStrip s
  have hg : good (clean_text s) = true := collapseAux_good (pyStrip s) false hlast
  have hh : nwHead (clean_text s) = true :=
    nwHead_collapseAux_false (pyStrip s) (nwHead_pyStrip s)
  show collapseAux false (pyStrip (clean_text s)) = clean_text s
  rw [good_pyStrip_fix _ hh hg]
  exact (good_collapse_fix _ hg).1

/-- C7: `normalize_answer` is total over all string inputs (it is a Lean
function, so in particular the empty string, strings with no letters and
strings starting with a digit are all mapped to a result rather than an
error), and it agrees everywhere with the spec's description
`specNormalizeAnswerToken`: the upper-cased leading letter of the stripped
input when that leading character is A-D case-insensitively, and the empty
string otherwise. -/
theorem C7_normalize_answer_total_spec (s : List Char) :
    normalize_answer s = specNormalizeAnswerToken s := by
  unfold normalize_answer specNormalizeAnswerToken
  by_cases h : s = []
  · subst h; rfl
  · simp only [h, if_false]
    cases hps : pyStrip s with
    | nil => rfl
    | cons c rest =>
      by_cases hl : isLetterAD c <;> simp [reMatchAD, hl]

/-- C6: for every pair of equal-length sequences, `calculate_score` returns
the number of index positions at which the two sequences agree. -/
theorem C6_calculate_score_counts (ua ca : List (List Char))
    (h : ua.length = ca.length) :
    calculate_score ua ca =
      (List.range ua.length).countP (fun i => ua.getD i [] == ca.getD i []) := by
  have hmin : min ua.length ca.length = ua.length := by omega
  rw [calculate_score_min_count, hmin]

/-- Witness for C6 at the spec's concrete example: the two lists have equal
length, the counting characterization applies, and the score is 3. -/
theorem C6_witness :
    ([['A'],['B'],['C'],['D'],['A']] : List (List Char)).length
        = ([['A'],['B'],['X'],['D'],['B']] : List (List Char)).length
      ∧ calculate_score [['A'],['B'],['C'],['D'],['A']] [['A'],['B'],['X'],['D'],['B']]
          = (List.range 5).countP
              (fun i => ([['A'],['B'],['C'],['D'],['A']] : List (List Char)).getD i []
                == ([['A'],['B'],['X'],['D'],['B']] : List (List Char)).getD i [])
      ∧ calculate_score [['A'],['B'],['C'],['D'],['A']] [['A'],['B'],['X'],['D'],['B']] = 3 :=
  ⟨rfl,
   C6_calculate_score_counts [['A'],['B'],['C'],['D'],['A']] [['A'],['B'],['X'],['D'],['B']] rfl,
   rfl⟩

/-- C2 counterexample: on unequal-length inputs (here 2 vs 1)
`calculate_score` does not fail: it silently truncates to the shorter
sequence and returns the numeric score 1 (the single zipped pair agrees),
contradicting the claim that it never returns a numeric score for
unequal-length inputs. -/
theorem C2_counterexample :
    calculate_score [['A'], ['B']] [['A']] = 1 := rfl

/-- C2 amended: `calculate_score` never fails on unequal-length inputs;
Python's `zip` silently truncates to the shorter sequence, so the result is
the count of agreeing indices below the minimum of the two lengths. -/
theorem C2_calculate_score_truncates (ua ca : List (List Char)) :
    calculate_score ua ca =
      (List.range (min ua.length ca.length)).countP
        (fun i => ua.getD i [] == ca.getD i []) :=
  calculate_score_min_count ua ca

/-- C5 counterexample: when the normalized user letter and the normalized
correct letter are both empty, the code classifies the question as Correct
(`if ua == ca`), whereas the claim requires every case with an empty letter
to be classified Wrong. -/
theorem C5_counterexample : classify [] [] = Verdict.correct := rfl

/-- C5 amended: index `i` is classified Correct exactly when the normalized
user letter equals the normalized correct letter — including the case where
both are empty; in every other case it is Wrong, with NoAnswer (empty user
letter) distinguished from Mismatch for messaging only; the numeric score
counts exactly the Correct-classified zipped pairs, so the distinction does
not affect it. -/
theorem C5_classify_amended :
    (∀ ua ca : List Char,
      (classify ua ca = .correct ↔ ua = ca)
      ∧ (classify ua ca = .wrongNoAnswer ↔ ua ≠ ca ∧ ua = [])
      ∧ (classify ua ca = .wrongMismatch ↔ ua ≠ ca ∧ ua ≠ []))
    ∧ ∀ uas cas : List (List Char),
        calculate_score uas cas
          = ((uas.zip cas).map
              (fun p => if classify p.1 p.2 = .correct then 1 else 0)).sum := by
  constructor
  · intro ua ca
    unfold classify
    by_cases h1 : ua = ca
    · simp [h1]
    · by_cases h2 : ua = []
      · by_cases h3 : ca = [] <;> simp [h1, h2, h3]
      · simp [h1, h2]
  · intro uas cas
    unfold calculate_score
    congr 1
    apply List.map_congr_left
    intro p _
    by_cases h : p.1 = p.2 <;> by_cases h2 : p.1 = [] <;> simp [classify, h, h2]

-- ======================================================================
-- Flattening helper lemmas
-- ======================================================================

theorem firstValues_single (pairs : List (List Char × PyVal)) :
    firstValues (pairs.map (fun p => PyVal.obj [p]))
      = some (pairs.map Prod.snd) := by
  induction pairs with
  | nil => rfl
  | cons p tl ih =>
    cases p with
    | mk k v => simp [firstValues, firstValue, ih]

theorem firstValues_none (xs : List PyVal)
    (h : ∃ x ∈ xs, firstValue x = none) : firstValues xs = none := by
  induction xs with
  | nil => simp at h
  | cons a tl ih =>
    obtain ⟨x, hx, hfx⟩ := h
    simp only [List.mem_cons] at hx
    cases hx with
    | inl he =>
      subst he
      simp [firstValues, hfx]
    | inr hm =>
      cases hfa : firstValue a with
      | none => simp [firstValues, hfa]
      | some v => simp [firstValues, hfa, ih ⟨x, hm, hfx⟩]

theorem firstValues_forall (xs ys : List PyVal)
    (h : List.Forall₂ (fun x y => firstValue x = some y) xs ys) :
    firstValues xs = some ys := by
  induction h with
  | nil => rfl
  | cons hxy htl ih => simp [firstValues, hxy, ih]

-- ======================================================================
-- Claim theorems: extraction, session steps
-- ======================================================================

/-- C4 counterexample: the serialized array `[1]` embedded with an empty
prefix and the suffix `" ]"` (which contains a `']'`) is not recovered:
the greedy `\[.*\]` match runs to the LAST `']'` of the text, producing
the unparseable fragment `[1] ]`, so `extract_json` returns `none` rather
than a value deep-equal to the array. -/
theorem C4_counterexample :
    extract_json (serVal (PyVal.arr [PyVal.num 1]) ++ [' ', ']']) = none := rfl

/-- C4 amended: the extraction round trip holds once the surrounding prose
is constrained to what the greedy regex tolerates — a prefix without `'['`
and a suffix without `']'` (and array strings within the modelled escape
set): `extract_json` on prefix ++ serialized array ++ suffix recovers a
value deep-equal to the embedded array. -/
theorem C4_extract_json_roundtrip (l : List PyVal) (p s : List Char)
    (hp : '[' ∉ p) (hs : ']' ∉ s) (hc : cleanVal (PyVal.arr l) = true) :
    extract_json (p ++ serVal (PyVal.arr l) ++ s) = some (PyVal.arr l) := by
  have hser : serVal (PyVal.arr l) = '[' :: serElems l ++ [']'] := by
    simp [serVal]
  unfold extract_json
  rw [hser, regexSearchBracket_embedded p s (serElems l) hp hs]
  simp only [← hser, json_loads_ser _ hc]

/-- Witness for C4 at a concrete embedding: prose prefix and suffix around
the serialized array `["A", "B"]`. -/
theorem C4_witness :
    ('[' ∉ "Sure, here is the JSON you asked for: ".data)
    ∧ (']' ∉ " I hope that helps!".data)
    ∧ cleanVal (PyVal.arr [PyVal.str ['A'], PyVal.str ['B']]) = true
    ∧ extract_json ("Sure, here is the JSON you asked for: ".data
        ++ serVal (PyVal.arr [PyVal.str ['A'], PyVal.str ['B']])
        ++ " I hope that helps!".data)
      = some (PyVal.arr [PyVal.str ['A'], PyVal.str ['B']]) :=
  ⟨by decide, by decide, rfl,
   C4_extract_json_roundtrip [PyVal.str ['A'], PyVal.str ['B']] _ _
     (by decide) (by decide) rfl⟩

/-- C3 counterexample: a generation response whose extraction is a single
question object with only three options — violating both the
five-question and the four-option requirements of the claim — is
committed anyway: `quiz_data` is set to it and `user_answers` is reset to
one empty entry; the session does not fall back to Empty. -/
theorem C3_counterexample :
    generateStep ⟨none, []⟩
      (serVal (PyVal.arr [PyVal.obj
        [("question".data, PyVal.str "q".data),
         ("options".data,
          PyVal.arr [PyVal.str "A".data, PyVal.str "B".data, PyVal.str "C".data])]]))
    = ⟨some (PyVal.arr [PyVal.obj
        [("question".data, PyVal.str "q".data),
         ("options".data,
          PyVal.arr [PyVal.str "A".data, PyVal.str "B".data, PyVal.str "C".data])]]),
       [[]]⟩ := rfl

/-- C3 amended: the generation handler validates no shape at all.  It
commits exactly when extraction yields a truthy value — any non-empty
array, regardless of question count, fields, or option counts — and then
resets `user_answers` to all-empty of matching length.  On a `none` or
empty-array extraction it surfaces the parse failure and keeps
`user_answers`, but `quiz_data` is still overwritten with that falsy
result (the prior quiz is not preserved either way). -/
theorem C3_generate_amended (st : QuizSession) (resp : List Char) :
    (∀ v, extract_json resp = some v → ∃ l, v = PyVal.arr l)
    ∧ (∀ l, extract_json resp = some (PyVal.arr l) → l ≠ [] →
        generateStep st resp
          = ⟨some (PyVal.arr l), List.replicate l.length []⟩)
    ∧ (extract_json resp = none →
        generateStep st resp = ⟨none, st.user_answers⟩)
    ∧ (extract_json resp = some (PyVal.arr []) →
        generateStep st resp = ⟨some (PyVal.arr []), st.user_answers⟩) := by
  refine ⟨fun v hv => extract_json_arr resp v hv, ?_, ?_, ?_⟩
  · intro l hl hne
    unfold generateStep
    rw [hl]
    simp [pvTruthy, hne, pvLen]
  · intro h
    unfold generateStep
    rw [h]
  · intro h
    unfold generateStep
    rw [h]
    simp [pvTruthy]

/-- Witness for C3: a well-formed one-element extraction is committed with
a matching all-empty answer list; a response with no JSON array leaves the
prior `user_answers` in place with `quiz_data` set to `none`. -/
theorem C3_witness :
    extract_json (serVal (PyVal.arr [PyVal.str ['A']]))
        = some (PyVal.arr [PyVal.str ['A']])
    ∧ generateStep ⟨none, [['o', 'l', 'd']]⟩ (serVal (PyVal.arr [PyVal.str ['A']]))
        = ⟨some (PyVal.arr [PyVal.str ['A']]), [[]]⟩
    ∧ extract_json "no json here".data = none
    ∧ generateStep ⟨none, [['o', 'l', 'd']]⟩ "no json here".data
        = ⟨none, [['o', 'l', 'd']]⟩ :=
  ⟨rfl,
   (C3_generate_amended ⟨none, [['o', 'l', 'd']]⟩ _).2.1 [PyVal.str ['A']] rfl
     (List.cons_ne_nil _ _),
   rfl,
   (C3_generate_amended ⟨none, [['o', 'l', 'd']]⟩ _).2.2.1 rfl⟩

/-- C1 counterexample: with a five-question quiz committed and five stored
answers, an answer key whose extraction yields only THREE letters is not
rejected: the code has no length check, so grading still produces a
numeric score (3, counted over the zip-truncated pairs) and displays it,
instead of failing back to Ready with a parse-failure message. -/
theorem C1_counterexample :
    (gradeStep
        ⟨some (PyVal.arr (List.replicate 5 (PyVal.obj [(['q'], PyVal.str ['t'])]))),
         [['A', ')'], ['B', ')'], ['C', ')'], ['D', ')'], ['A', ')']]⟩
        (serVal (PyVal.arr [PyVal.str ['A'], PyVal.str ['B'], PyVal.str ['C']]))).2
      = GradeOutcome.graded 3 [['A'], ['B'], ['C'], ['D'], ['A']]
          [['A'], ['B'], ['C']] := rfl

/-- C1 amended: the submit handler never writes to the session, so the
prior `QuizSet` and `UserAnswerSet` are unchanged in every branch; a
`none` or empty extraction reports the parse failure with no score; but
there is no length check — any non-empty extracted list that flattens
successfully produces a score (over the zip-truncated pairs), even when
its length differs from the question count. -/
theorem C1_grade_amended (st : QuizSession) (resp : List Char) :
    (gradeStep st resp).1 = st
    ∧ (extract_json resp = none →
        (gradeStep st resp).2 = GradeOutcome.parseFailure)
    ∧ (extract_json resp = some (PyVal.arr []) →
        (gradeStep st resp).2 = GradeOutcome.parseFailure)
    ∧ (∀ ca ca', extract_json resp = some (PyVal.arr ca) → ca ≠ [] →
        flattenCorrect ca = some ca' →
        (gradeStep st resp).2 = GradeOutcome.graded
          (calculate_score (st.user_answers.map normalize_answer)
            (ca'.map (fun a => normalize_answer (removePunct (pyStr a)))))
          (st.user_answers.map normalize_answer)
          (ca'.map (fun a => normalize_answer (removePunct (pyStr a))))) := by
  refine ⟨rfl, ?_, ?_, ?_⟩
  · intro h
    show gradeOutcome st resp = GradeOutcome.parseFailure
    unfold gradeOutcome
    rw [h]
  · intro h
    show gradeOutcome st resp = GradeOutcome.parseFailure
    unfold gradeOutcome
    rw [h]
    simp [pvTruthy]
  · intro ca ca' hca hne hfc
    show gradeOutcome st resp = GradeOutcome.graded _ _ _
    unfold gradeOutcome
    rw [hca]
    simp [pvTruthy, hne, hfc]

/-- Witness for C1: a response with no bracketed JSON reports a parse
failure with the session unchanged; a one-letter key against a one-answer
session grades to score 0 with the stored state untouched. -/
theorem C1_witness :
    extract_json "nothing".data = none
    ∧ (gradeStep ⟨none, [['A']]⟩ "nothing".data).1 = ⟨none, [['A']]⟩
    ∧ (gradeStep ⟨none, [['A']]⟩ "nothing".data).2 = GradeOutcome.parseFailure
    ∧ extract_json (serVal (PyVal.arr [PyVal.str ['B']]))
        = some (PyVal.arr [PyVal.str ['B']])
    ∧ flattenCorrect [PyVal.str ['B']] = some [PyVal.str ['B']]
    ∧ (gradeStep ⟨none, [['A']]⟩ (serVal (PyVal.arr [PyVal.str ['B']]))).2
        = GradeOutcome.graded 0 [['A']] [['B']] :=
  ⟨rfl,
   (C1_grade_amended ⟨none, [['A']]⟩ _).1,
   (C1_grade_amended ⟨none, [['A']]⟩ _).2.1 rfl,
   rfl, rfl,
   (C1_grade_amended ⟨none, [['A']]⟩ _).2.2.2 [PyVal.str ['B']] [PyVal.str ['B']]
     rfl (List.cons_ne_nil _ _) rfl⟩

/-- C8: a key list consisting of single-entry mappings is flattened by
taking each mapping's first (only) value, in sequence order, before
normalization; on the spec's concrete input `[{"1": "B"}, {"2": "A"}]`
the flattened/normalized sequence is `["B", "A"]`, and running the whole
grading step on that input produces exactly those normalized correct
answers. -/
theorem C8_flatten_single_key :
    (∀ pairs : List (List Char × PyVal),
      flattenCorrect (pairs.map (fun p => PyVal.obj [p]))
        = some (pairs.map Prod.snd))
    ∧ (flattenCorrect [PyVal.obj [(['1'], PyVal.str ['B'])],
          PyVal.obj [(['2'], PyVal.str ['A'])]]).map
        (fun ca' => ca'.map (fun a => normalize_answer (removePunct (pyStr a))))
      = some [['B'], ['A']]
    ∧ (gradeStep ⟨none, []⟩
          (serVal (PyVal.arr [PyVal.obj [(['1'], PyVal.str ['B'])],
            PyVal.obj [(['2'], PyVal.str ['A'])]]))).2
        = GradeOutcome.graded 0 [] [['B'], ['A']] := by
  refine ⟨?_, rfl, rfl⟩
  intro pairs
  cases pairs with
  | nil => rfl
  | cons p tl =>
    have h := firstValues_single (p :: tl)
    simp only [List.map_cons] at h
    unfold flattenCorrect
    simp [isDict, h]

/-- C10 counterexample: a key list whose first element is a mapping but
whose second element is a plain string is NOT pointwise replaced by first
values as the claim states — the comprehension raises an unhandled
`AttributeError` (modelled as `none`), so no flattened list exists. -/
theorem C10_counterexample :
    flattenCorrect [PyVal.obj [(['1'], PyVal.str ['B'])], PyVal.str ['A']]
      = none := rfl

/-- C10 amended: whether the extracted list is flattened is decided solely
by its first element.  If the first element is not a mapping, nothing is
flattened even when later elements are mappings.  If the first element is
a mapping, every element is replaced by its first value provided every
element is a non-empty mapping; otherwise the comprehension raises an
unhandled error (modelled as `none`). -/
theorem C10_flatten_first_decides (a : PyVal) (l : List PyVal) :
    (isDict a = false → flattenCorrect (a :: l) = some (a :: l))
    ∧ (isDict a = true → (∃ x ∈ a :: l, firstValue x = none) →
        flattenCorrect (a :: l) = none)
    ∧ (isDict a = true → ∀ ys,
        List.Forall₂ (fun x y => firstValue x = some y) (a :: l) ys →
        flattenCorrect (a :: l) = some ys) := by
  refine ⟨?_, ?_, ?_⟩
  · intro h
    unfold flattenCorrect
    simp [h]
  · intro h hex
    unfold flattenCorrect
    simp [h, firstValues_none _ hex]
  · intro h ys hys
    unfold flattenCorrect
    simp [h, firstValues_forall _ _ hys]

/-- Witness for C10: a non-mapping first element suppresses flattening
even with a mapping behind it; a mapping first element with a non-mapping
behind it raises; a list of single-entry mappings flattens pointwise. -/
theorem C10_witness :
    (isDict (PyVal.str ['A']) = false
      ∧ flattenCorrect [PyVal.str ['A'], PyVal.obj [(['1'], PyVal.str ['B'])]]
          = some [PyVal.str ['A'], PyVal.obj [(['1'], PyVal.str ['B'])]])
    ∧ (isDict (PyVal.obj [(['1'], PyVal.str ['B'])]) = true
      ∧ flattenCorrect [PyVal.obj [(['1'], PyVal.str ['B'])], PyVal.str ['A']]
          = none)
    ∧ flattenCorrect [PyVal.obj [(['1'], PyVal.str ['B'])],
        PyVal.obj [(['2'], PyVal.str ['A'])]]
        = some [PyVal.str ['B'], PyVal.str ['A']] :=
  ⟨⟨rfl, (C10_flatten_first_decides (PyVal.str ['A'])
      [PyVal.obj [(['1'], PyVal.str ['B'])]]).1 rfl⟩,
   ⟨rfl, (C10_flatten_first_decides (PyVal.obj [(['1'], PyVal.str ['B'])])
      [PyVal.str ['A']]).2.1 rfl ⟨PyVal.str ['A'], by simp, rfl⟩⟩,
   (C10_flatten_first_decides (PyVal.obj [(['1'], PyVal.str ['B'])])
      [PyVal.obj [(['2'], PyVal.str ['A'])]]).2.2 rfl
     [PyVal.str ['B'], PyVal.str ['A']]
     (List.Forall₂.cons rfl (List.Forall₂.cons rfl List.Forall₂.nil))⟩

end StudyBuddy
